import Mathlib

/-!
# Verification of the qdrant-service chunking and indexing pipeline

Shallow embedding of the core of the `qdrant-service` repository:

* `app/chunking.py`  — `TextChunker` (word windowing, deterministic chunk ids),
* `app/tracker.py`   — `QdrantProcessTracker` (processed-source bookkeeping),
* `app/index_all.py` — `index_documents` (batching, routing, tracker commit),
* `app/qdrant_service.py` — `QdrantService.hybrid_search` (fusion fallback).

Python string/list primitives that the code relies on (`str.split()`,
`' '.join`, `str.strip()`, list slices, `range`) are modelled explicitly;
machine-level effects (network calls, file writes) are modelled as
`Except`-returning operations supplied by the caller.
-/

namespace QdrantSpec

/-- Python `text.split()` (no separator argument): maximal runs of
whitespace separate the words, and empty pieces are discarded.  Modelled on
the character list of the string via `List.splitOnP`. -/
def splitWords (text : String) : List String :=
  ((text.data.splitOnP (fun c => c.isWhitespace)).filter (fun w => !w.isEmpty)).map
    (fun w => String.mk w)

/-- Python `' '.join(ws)`: concatenate the words with a single space between
consecutive words. -/
def joinWords (ws : List String) : String :=
  String.mk (List.intercalate [' '] (ws.map String.data))

/-- Python `text.strip()`: remove leading and trailing whitespace. -/
def pyStrip (text : String) : String :=
  String.mk
    (((text.data.dropWhile (fun c => c.isWhitespace)).reverse.dropWhile
        (fun c => c.isWhitespace)).reverse)

/-- Python `int(n / 1.33)` (`app/chunking.py` lines 61-62).  The Python
expression divides by the IEEE-754 double nearest to `1.33` and truncates
toward zero.  For every `n < 2 ^ 52` the result coincides with the exact
rational floor `⌊100 * n / 133⌋`: the double nearest to `1.33` exceeds the
rational `1.33` by a relative error of about `5.3e-17`, so the computed
quotient differs from `100 * n / 133` by well under half an ulp, and the
fractional part of `100 * n / 133` is either `0` or at least `1 / 133`. -/
def tokensToWords (n : Nat) : Nat := n * 100 / 133

/-- Clamp a Python index `i` against a list of length `n`, as Python's
slice semantics do: negative indices count from the end (floored at `0`),
nonnegative indices are capped at `n`. -/
def pyBound (n : Nat) (i : Int) : Nat :=
  if i < 0 then ((n : Int) + i).toNat else min i.toNat n

/-- Python list slice `l[a:b]` (unit step). -/
def pySlice {α : Type} (l : List α) (a b : Int) : List α :=
  (l.drop (pyBound l.length a)).take (pyBound l.length b - pyBound l.length a)

/-- The `metadata` dict that both call sites of `chunk_text`
(`app/index_all.py` lines 68-71, `app/main.py` lines 92-96) pass in:
`{'type': doc['payload'].get('type'), 'source': doc['payload'].get('source')}`.
`dict.get` yields `None` for a missing key, hence the `Option`s. -/
structure Metadata where
  type : Option String
  source : Option String
deriving Repr, DecidableEq

/-- The `chunk['payload']` dict built in `chunk_text`
(`app/chunking.py` lines 83-91): the fixed positional fields merged with the
caller metadata.  `total_chunks` starts as `None` and is back-filled. -/
structure ChunkPayload where
  chunk_index : Nat
  chunk_content : String
  parent_id : String
  total_chunks : Option Nat
  start_word : Int
  end_word : Int
  type : Option String
  source : Option String
deriving Repr, DecidableEq

/-- A chunk document as returned by `chunk_text`
(`app/chunking.py` lines 80-92): `{'id', 'text', 'payload'}`. -/
structure Chunk where
  id : String
  text : String
  payload : ChunkPayload
deriving Repr, DecidableEq

/-- Model of `TextChunker._generate_chunk_id` (`app/chunking.py` lines 35-46).
`uuid.uuid5(uuid.NAMESPACE_DNS, name)` is a pure name-based (SHA-1) hash of
its `name` argument; it is modelled by an arbitrary function
`u5 : String → String` supplied as a parameter, applied to the seed string
`f"{parent_id}_chunk_{chunk_index}"` built by the source. -/
def generate_chunk_id (u5 : String → String) (parent_id : String)
    (chunk_index : Nat) : String :=
  u5 (parent_id ++ "_chunk_" ++ toString chunk_index)

/-- One pass of the `while start < len(words)` loop of `chunk_text`
(`app/chunking.py` lines 70-101), with explicit fuel: `none` means the loop
did not finish within `fuel` iterations (the loop has no other exit, so
`none` for every fuel models divergence).  `start` is an `Int`, as in
Python, where `start += (words_per_chunk - words_overlap)` can decrease it
when `overlap ≥ chunk_size`. -/
def chunkLoop (u5 : String → String) (wpc wovl : Nat) (words : List String)
    (doc_id : String) (md : Metadata) :
    Nat → Int → Nat → List Chunk → Option (List Chunk)
  | 0, _, _, _ => none
  | fuel + 1, start, chunk_index, chunks =>
    if start < (words.length : Int) then
      let e : Int := start + (wpc : Int)
      let chunk_words := pySlice words start e
      let ctext := joinWords chunk_words
      let c : Chunk :=
        { id := generate_chunk_id u5 doc_id chunk_index
          text := ctext
          payload :=
            { chunk_index := chunk_index
              chunk_content := ctext
              parent_id := doc_id
              total_chunks := none
              start_word := start
              end_word := min e (words.length : Int)
              type := md.type
              source := md.source } }
      let chunks' := chunks ++ [c]
      if (words.length : Int) ≤ e then some chunks'
      else
        chunkLoop u5 wpc wovl words doc_id md fuel
          (start + ((wpc : Int) - (wovl : Int))) (chunk_index + 1) chunks'
    else some chunks

/-- The back-fill pass of `chunk_text` (`app/chunking.py` lines 104-105):
`total_chunks` on every chunk becomes the length of the final list. -/
def backfill (cs : List Chunk) : List Chunk :=
  cs.map (fun c => { c with payload := { c.payload with total_chunks := some cs.length } })

/-- Model of `TextChunker.chunk_text` (`app/chunking.py` lines 48-107).
The `while` loop is run with fuel `words.length + 1`, which suffices
whenever the loop terminates at all (`chunkLoop_isSome_of_step_pos`);
`none` models the diverging executions (see `chunkLoop_none_of_step_nonpos`). -/
def chunk_text (u5 : String → String) (chunk_size overlap : Nat)
    (text : String) (doc_id : String) (md : Metadata) : Option (List Chunk) :=
  if text = "" ∨ pyStrip text = "" then some []
  else
    let words_per_chunk := tokensToWords chunk_size
    let words_overlap := tokensToWords overlap
    let words := splitWords text
    (chunkLoop u5 words_per_chunk words_overlap words doc_id md
        (words.length + 1) 0 0 []).map backfill

/-! ## Word-splitting infrastructure -/

/-- Unfolding of `List.intercalate` on a two-or-more element list. -/
theorem intercalate_cons_cons {α : Type} (sep : List α) (x y : List α)
    (t : List (List α)) :
    List.intercalate sep (x :: y :: t) = x ++ sep ++ List.intercalate sep (y :: t) := by
  simp [List.intercalate, List.intersperse_cons_cons, List.append_assoc]

/-- Every piece produced by `splitOnP` is free of separator elements. -/
theorem splitOnP_pieces {α : Type} (p : α → Bool) :
    ∀ (l : List α), ∀ w ∈ l.splitOnP p, ∀ c ∈ w, ¬p c = true := by
  intro l
  induction l with
  | nil =>
    intro w hw c hc
    rw [List.splitOnP_nil] at hw
    simp only [List.mem_singleton] at hw
    subst hw
    cases hc
  | cons x xs ih =>
    intro w hw c hc
    rw [List.splitOnP_cons] at hw
    by_cases hx : p x
    · rw [if_pos hx] at hw
      rcases List.mem_cons.mp hw with h | h
      · subst h; cases hc
      · exact ih w h c hc
    · rw [if_neg hx] at hw
      rcases hsp : xs.splitOnP p with _ | ⟨h₁, t⟩
      · exact absurd hsp (List.splitOnP_ne_nil p xs)
      · rw [hsp] at hw
        simp only [List.modifyHead, List.mem_cons] at hw
        rcases hw with h | h
        · subst h
          rcases List.mem_cons.mp hc with h | h
          · subst h; exact hx
          · exact ih h₁ (by rw [hsp]; exact List.mem_cons_self _ _) c h
        · exact ih w (by rw [hsp]; exact List.mem_cons_of_mem _ h) c hc

/-- Splitting on `p` after joining with a single `p`-separator recovers the
original pieces, provided each piece is nonempty and `p`-free (the empty
pieces filter then keeps everything). -/
theorem splitOnP_intercalate_filter {α : Type} (p : α → Bool) (sep : α)
    (hsep : p sep = true) :
    ∀ (wss : List (List α)), (∀ w ∈ wss, w ≠ [] ∧ ∀ c ∈ w, ¬p c = true) →
      ((List.intercalate [sep] wss).splitOnP p).filter (fun w => !w.isEmpty) = wss := by
  intro wss
  induction wss with
  | nil =>
    intro _
    simp [List.intercalate, List.splitOnP_nil]
  | cons w rest ih =>
    intro h
    rcases rest with _ | ⟨y, t⟩
    · have hw := h w (List.mem_cons_self _ _)
      have : List.intercalate [sep] [w] = w := by
        simp [List.intercalate]
      rw [this, List.splitOnP_eq_single _ _ hw.2]
      simp [List.isEmpty_iff, hw.1]
    · rw [intercalate_cons_cons, List.append_assoc, List.singleton_append,
        List.splitOnP_first p _ (h w (List.mem_cons_self _ _)).2 sep hsep]
      have hw := h w (List.mem_cons_self _ _)
      rw [List.filter_cons]
      have : (!w.isEmpty) = true := by
        simp [List.isEmpty_iff, hw.1]
      rw [if_pos this, ih (fun v hv => h v (List.mem_cons_of_mem _ hv))]

/-- The words of any text are nonempty and contain no whitespace. -/
theorem splitWords_wf (text : String) :
    ∀ w ∈ splitWords text, w.data ≠ [] ∧ ∀ c ∈ w.data, ¬c.isWhitespace = true := by
  intro w hw
  unfold splitWords at hw
  rcases List.mem_map.mp hw with ⟨w', hw', rfl⟩
  obtain ⟨hmem, hne⟩ := List.mem_filter.mp hw'
  refine ⟨?_, ?_⟩
  · simpa [List.isEmpty_iff] using hne
  · intro c hc
    exact splitOnP_pieces _ text.data w' hmem c hc

/-- Python `str.split()` is a left inverse of `' '.join` on lists of nonempty,
whitespace-free words. -/
theorem splitWords_joinWords (ws : List String)
    (h : ∀ w ∈ ws, w.data ≠ [] ∧ ∀ c ∈ w.data, ¬c.isWhitespace = true) :
    splitWords (joinWords ws) = ws := by
  unfold splitWords joinWords
  have hdata : (String.mk (List.intercalate [' '] (ws.map String.data))).data
      = List.intercalate [' '] (ws.map String.data) := rfl
  rw [hdata]
  rw [splitOnP_intercalate_filter (fun c => c.isWhitespace) ' ' (by decide)
      (ws.map String.data) ?_]
  · rw [List.map_map]
    have : (fun w => String.mk w) ∘ String.data = id := by
      funext s; rfl
    rw [this, List.map_id]
  · intro w' hw'
    rcases List.mem_map.mp hw' with ⟨s, hs, rfl⟩
    exact h s hs

/-- An all-whitespace character list has no words. -/
theorem splitWords_eq_nil_of_all_white (text : String)
    (h : ∀ c ∈ text.data, c.isWhitespace = true) : splitWords text = [] := by
  unfold splitWords
  suffices hfilter : ∀ (l : List Char), (∀ c ∈ l, c.isWhitespace = true) →
      (l.splitOnP (fun c => c.isWhitespace)).filter (fun w => !w.isEmpty) = [] by
    rw [hfilter text.data h]; rfl
  intro l
  induction l with
  | nil => intro _; rfl
  | cons x xs ih =>
    intro hl
    rw [List.splitOnP_cons, if_pos (hl x (List.mem_cons_self _ _))]
    rw [List.filter_cons]
    simp only [List.isEmpty_nil, Bool.not_true, if_neg (by decide : ¬(!true) = true)]
    exact ih (fun c hc => hl c (List.mem_cons_of_mem _ hc))

/-- A string strips to `""` exactly when all of its characters are
whitespace (forward direction is what `chunk_text` needs). -/
theorem all_white_of_pyStrip_eq_empty (text : String)
    (h : pyStrip text = "") : ∀ c ∈ text.data, c.isWhitespace = true := by
  unfold pyStrip at h
  have hdata : (((text.data.dropWhile (fun c => c.isWhitespace)).reverse.dropWhile
      (fun c => c.isWhitespace)).reverse) = [] := congrArg String.data h
  rw [List.reverse_eq_nil_iff] at hdata
  rw [List.dropWhile_eq_nil_iff] at hdata
  intro c hc
  have hsplit := List.takeWhile_append_dropWhile (fun c => c.isWhitespace) text.data
  rw [← hsplit] at hc
  rcases List.mem_append.mp hc with h' | h'
  · exact List.mem_takeWhile_imp h'
  · exact hdata c (List.mem_reverse.mpr h')

/-! ## Window slices -/

/-- On nonnegative bounds `a` and `a + k`, the Python slice `l[a:a+k]` is
`take k` after `drop a`. -/
theorem pySlice_natCast {α : Type} (l : List α) (a k : Nat) :
    pySlice l (a : Int) ((a : Int) + (k : Int)) = (l.drop a).take k := by
  unfold pySlice pyBound
  have ha : ¬((a : Int) < 0) := by omega
  have hak : ¬((a : Int) + (k : Int) < 0) := by omega
  rw [if_neg ha, if_neg hak]
  have h1 : (a : Int).toNat = a := Int.toNat_ofNat a
  have h2 : ((a : Int) + (k : Int)).toNat = a + k := by omega
  rw [h1, h2]
  by_cases hle : a ≤ l.length
  · rw [min_eq_left hle]
    apply (List.take_eq_take).mpr
    have hdl : (l.drop a).length = l.length - a := List.length_drop a l
    omega
  · have hmin : min a l.length = l.length := by omega
    rw [hmin, List.drop_eq_nil_of_le (le_refl l.length),
      List.drop_eq_nil_of_le (show l.length ≤ a by omega)]
    simp

/-- The words of a window slice are words of the text. -/
theorem pySlice_subset {α : Type} (l : List α) (a b : Int) :
    pySlice l a b ⊆ l := by
  unfold pySlice
  intro x hx
  exact List.drop_subset _ l (List.take_subset _ _ hx)

/-- The reconstruction operator of the coverage property: the words of the
first chunk, followed by the words of every later chunk with its declared
overlap prefix of `wovl` words removed. -/
def reconWords (wovl : Nat) : List Chunk → List String
  | [] => []
  | c :: rest =>
    splitWords c.text ++ (rest.map (fun c => (splitWords c.text).drop wovl)).flatten

/-- The back-fill pass does not change any chunk's text, so it does not change the
reconstruction. -/
theorem reconWords_backfill (wovl : Nat) (cs : List Chunk) :
    reconWords wovl (backfill cs) = reconWords wovl cs := by
  cases cs with
  | nil => rfl
  | cons c rest =>
    unfold backfill reconWords
    simp only [List.map_cons, List.map_map]
    rfl

/-- Main loop invariant: whenever the windowing loop started at word offset
`sn` returns, it returns the accumulator extended by a tail of chunks whose
word sequences (a) after dropping the overlap prefix of every chunk,
concatenate to `words.drop (sn + wovl)`, and (b) with the first chunk kept
whole, concatenate to `words.drop sn`. -/
theorem chunkLoop_coverage (u5 : String → String) (wpc wovl : Nat)
    (words : List String) (doc : String) (md : Metadata)
    (hstep : wovl < wpc)
    (hwf : ∀ w ∈ words, w.data ≠ [] ∧ ∀ c ∈ w.data, ¬c.isWhitespace = true) :
    ∀ (fuel : Nat) (sn : Nat) (ci : Nat) (acc : List Chunk) (res : List Chunk),
      chunkLoop u5 wpc wovl words doc md fuel (sn : Int) ci acc = some res →
      ∃ tail, res = acc ++ tail ∧
        ((tail.map (fun c => (splitWords c.text).drop wovl)).flatten
            = words.drop (sn + wovl)) ∧
        (reconWords wovl tail = words.drop sn) := by
  intro fuel
  induction fuel with
  | zero => intro sn ci acc res h; cases h
  | succ fuel ih =>
    intro sn ci acc res h
    rw [chunkLoop] at h
    by_cases hlt : (sn : Int) < (words.length : Int)
    · rw [if_pos hlt] at h
      have hslice : pySlice words (sn : Int) ((sn : Int) + (wpc : Int))
          = (words.drop sn).take wpc := pySlice_natCast words sn wpc
      have hwfslice : ∀ w ∈ (words.drop sn).take wpc,
          w.data ≠ [] ∧ ∀ c ∈ w.data, ¬c.isWhitespace = true := by
        intro w hw
        exact hwf w (List.drop_subset _ _ (List.take_subset _ _ hw))
      have hsplit : splitWords (joinWords ((words.drop sn).take wpc))
          = (words.drop sn).take wpc := splitWords_joinWords _ hwfslice
      by_cases hbr : (words.length : Int) ≤ (sn : Int) + (wpc : Int)
      · rw [if_pos hbr] at h
        have hfull : (words.drop sn).take wpc = words.drop sn := by
          apply List.take_of_length_le
          rw [List.length_drop]
          omega
        refine ⟨_, (Option.some.injEq _ _).mp h.symm, ?_, ?_⟩
        · simp only [List.map_cons, List.map_nil, List.flatten_cons,
            List.flatten_nil, List.append_nil, hslice, hsplit]
          rw [hfull, List.drop_drop]
        · simp only [reconWords, List.map_nil, List.flatten_nil,
            List.append_nil, hslice, hsplit]
          exact hfull
      · rw [if_neg hbr] at h
        have hcast : (sn : Int) + ((wpc : Int) - (wovl : Int))
            = ((sn + (wpc - wovl) : Nat) : Int) := by omega
        rw [hcast] at h
        obtain ⟨tail', htail', hA', hB'⟩ := ih (sn + (wpc - wovl)) (ci + 1) _ res h
        have hlen : sn + wpc < words.length := by omega
        have hcw : splitWords (joinWords (pySlice words (sn : Int)
            ((sn : Int) + (wpc : Int)))) = (words.drop sn).take wpc := by
          rw [hslice]; exact hsplit
        have hsn' : sn + (wpc - wovl) + wovl = sn + wpc := by omega
        rw [hsn'] at hA'
        refine ⟨_ :: tail',
          by rw [htail', List.append_assoc, List.singleton_append], ?_, ?_⟩
        · simp only [List.map_cons, List.flatten_cons, hcw]
          rw [List.drop_take, List.drop_drop, hA']
          have hdd : words.drop (sn + wpc)
              = (words.drop (sn + wovl)).drop (wpc - wovl) := by
            rw [List.drop_drop]
            congr 1
            omega
          rw [hdd, List.take_append_drop]
        · simp only [reconWords, List.map_cons, List.flatten_cons, hcw]
          rw [hA']
          have hdd : words.drop (sn + wpc) = (words.drop sn).drop wpc :=
            (List.drop_drop wpc sn words).symm
          rw [hdd, List.take_append_drop]
    · rw [if_neg hlt] at h
      have hsome := (Option.some.injEq _ _).mp h
      refine ⟨[], by rw [← hsome, List.append_nil], ?_, ?_⟩
      · simp only [List.map_nil, List.flatten_nil]
        rw [eq_comm]
        apply List.drop_eq_nil_of_le
        omega
      · simp only [reconWords]
        rw [eq_comm]
        apply List.drop_eq_nil_of_le
        omega

/-- Id invariant: the ids of the chunks appended by the loop are the
deterministic ids of consecutive chunk indices starting at `ci`. -/
theorem chunkLoop_ids (u5 : String → String) (wpc wovl : Nat)
    (words : List String) (doc : String) (md : Metadata) :
    ∀ (fuel : Nat) (s : Int) (ci : Nat) (acc : List Chunk) (res : List Chunk),
      chunkLoop u5 wpc wovl words doc md fuel s ci acc = some res →
      ∃ tail, res = acc ++ tail ∧
        tail.map (fun c => c.id)
          = (List.range' ci tail.length).map (generate_chunk_id u5 doc) := by
  intro fuel
  induction fuel with
  | zero => intro s ci acc res h; cases h
  | succ fuel ih =>
    intro s ci acc res h
    rw [chunkLoop] at h
    by_cases hlt : s < (words.length : Int)
    · rw [if_pos hlt] at h
      by_cases hbr : (words.length : Int) ≤ s + (wpc : Int)
      · rw [if_pos hbr] at h
        refine ⟨_, (Option.some.injEq _ _).mp h.symm, ?_⟩
        simp [List.range'_succ]
      · rw [if_neg hbr] at h
        obtain ⟨tail', htail', hids⟩ := ih _ (ci + 1) _ res h
        refine ⟨_ :: tail',
          by rw [htail', List.append_assoc, List.singleton_append], ?_⟩
        simp only [List.map_cons, List.length_cons, List.range'_succ, hids]
    · rw [if_neg hlt] at h
      exact ⟨[], by rw [← (Option.some.injEq _ _).mp h, List.append_nil], rfl⟩

/-- Termination of the windowing loop when the word step is positive: fuel
greater than the number of unconsumed words suffices. -/
theorem chunkLoop_isSome_of_step_pos (u5 : String → String) (wpc wovl : Nat)
    (words : List String) (doc : String) (md : Metadata) (hstep : wovl < wpc) :
    ∀ (fuel : Nat) (s : Int) (ci : Nat) (acc : List Chunk), 0 ≤ s →
      words.length - s.toNat < fuel →
      (chunkLoop u5 wpc wovl words doc md fuel s ci acc).isSome := by
  intro fuel
  induction fuel with
  | zero => intro s ci acc hs hfuel; omega
  | succ fuel ih =>
    intro s ci acc hs hfuel
    rw [chunkLoop]
    by_cases hlt : s < (words.length : Int)
    · rw [if_pos hlt]
      by_cases hbr : (words.length : Int) ≤ s + (wpc : Int)
      · rw [if_pos hbr]; rfl
      · rw [if_neg hbr]
        apply ih
        · omega
        · omega
    · rw [if_neg hlt]; rfl

/-- Divergence of the windowing loop when the word step is not positive and
the text is longer than one window: no amount of fuel completes the loop.
Started at a nonpositive word offset (the source starts at `0`), the offset
never increases and the window end never reaches the end of the text. -/
theorem chunkLoop_none_of_step_nonpos (u5 : String → String) (wpc wovl : Nat)
    (words : List String) (doc : String) (md : Metadata)
    (hstep : wpc ≤ wovl) (hlen : wpc < words.length) :
    ∀ (fuel : Nat) (s : Int) (ci : Nat) (acc : List Chunk), s ≤ 0 →
      chunkLoop u5 wpc wovl words doc md fuel s ci acc = none := by
  intro fuel
  induction fuel with
  | zero => intro s ci acc hs; rfl
  | succ fuel ih =>
    intro s ci acc hs
    rw [chunkLoop]
    have hlt : s < (words.length : Int) := by omega
    rw [if_pos hlt]
    have hbr : ¬((words.length : Int) ≤ s + (wpc : Int)) := by omega
    rw [if_neg hbr]
    exact ih _ _ _ (by omega)

/-! ## Claim theorems for the chunker -/

/-- C6: for every text that is empty or consists only of whitespace,
`chunk_text` returns the empty list. -/
theorem chunk_text_empty_input (u5 : String → String) (chunk_size overlap : Nat)
    (text doc : String) (md : Metadata)
    (h : ∀ c ∈ text.data, c.isWhitespace = true) :
    chunk_text u5 chunk_size overlap text doc md = some [] := by
  unfold chunk_text
  have hstrip : pyStrip text = "" := by
    unfold pyStrip
    rw [List.dropWhile_eq_nil_iff.mpr h]
    rfl
  rw [if_pos (Or.inr hstrip)]

/-- Witness for C6 at the one-space string. -/
theorem chunk_text_empty_input_witness :
    chunk_text (fun s => s) 512 128 " " "doc" ⟨none, none⟩ = some [] :=
  chunk_text_empty_input (fun s => s) 512 128 " " "doc" ⟨none, none⟩ (by decide)

/-- C5: when the effective word step is positive, concatenating the word
sequences of the chunks in index order, with the declared overlap prefix of
every chunk after the first removed, reconstructs exactly the word sequence
of the original text. -/
theorem chunk_text_coverage (u5 : String → String) (chunk_size overlap : Nat)
    (text doc : String) (md : Metadata) (res : List Chunk)
    (hstep : tokensToWords overlap < tokensToWords chunk_size)
    (h : chunk_text u5 chunk_size overlap text doc md = some res) :
    reconWords (tokensToWords overlap) res = splitWords text := by
  unfold chunk_text at h
  by_cases h0 : text = "" ∨ pyStrip text = ""
  · rw [if_pos h0] at h
    have hres : res = [] := ((Option.some.injEq _ _).mp h).symm
    subst hres
    rcases h0 with h0 | h0
    · subst h0; rfl
    · rw [splitWords_eq_nil_of_all_white text
        (all_white_of_pyStrip_eq_empty text h0)]
      rfl
  · rw [if_neg h0] at h
    obtain ⟨r, hr, hback⟩ := Option.map_eq_some'.mp h
    have hr' : chunkLoop u5 (tokensToWords chunk_size) (tokensToWords overlap)
        (splitWords text) doc md ((splitWords text).length + 1)
        (((0 : Nat) : Int)) 0 [] = some r := by exact_mod_cast hr
    obtain ⟨tail, htail, _, hB⟩ := chunkLoop_coverage u5 _ _ (splitWords text)
      doc md hstep (splitWords_wf text) _ 0 0 [] r hr'
    rw [List.nil_append] at htail
    subst htail
    rw [← hback, reconWords_backfill, hB, List.drop_zero]

/-- Witness for C5: chunk size 4 tokens (3 words), overlap 2 tokens
(1 word), a five-word text splits into two overlapping chunks whose
reconstruction is the original word sequence. -/
theorem chunk_text_coverage_witness :
    tokensToWords 2 < tokensToWords 4 ∧
      reconWords (tokensToWords 2)
          [⟨"doc_chunk_0", "a b c", ⟨0, "a b c", "doc", some 2, 0, 3, none, none⟩⟩,
           ⟨"doc_chunk_1", "c d e", ⟨1, "c d e", "doc", some 2, 2, 5, none, none⟩⟩]
        = splitWords "a b c d e" :=
  ⟨by decide,
    chunk_text_coverage (fun s => s) 4 2 "a b c d e" "doc" ⟨none, none⟩
      [⟨"doc_chunk_0", "a b c", ⟨0, "a b c", "doc", some 2, 0, 3, none, none⟩⟩,
       ⟨"doc_chunk_1", "c d e", ⟨1, "c d e", "doc", some 2, 2, 5, none, none⟩⟩]
      (by decide) (by decide)⟩

/-- C9: `chunk_text` terminates for every input whenever
`int(overlap/1.33) < int(chunk_size/1.33)`; and when
`int(overlap/1.33) >= int(chunk_size/1.33)` and the text has more words
than `int(chunk_size/1.33)`, the windowing loop never terminates: it
returns `none` for every fuel. -/
theorem chunk_text_termination (u5 : String → String) (chunk_size overlap : Nat)
    (text doc : String) (md : Metadata) :
    (tokensToWords overlap < tokensToWords chunk_size →
      (chunk_text u5 chunk_size overlap text doc md).isSome) ∧
    (tokensToWords chunk_size ≤ tokensToWords overlap →
      tokensToWords chunk_size < (splitWords text).length →
      ∀ (fuel ci : Nat) (acc : List Chunk),
        chunkLoop u5 (tokensToWords chunk_size) (tokensToWords overlap)
          (splitWords text) doc md fuel 0 ci acc = none) := by
  constructor
  · intro hstep
    unfold chunk_text
    by_cases h0 : text = "" ∨ pyStrip text = ""
    · rw [if_pos h0]; rfl
    · rw [if_neg h0]
      have hloop := chunkLoop_isSome_of_step_pos u5 (tokensToWords chunk_size)
        (tokensToWords overlap) (splitWords text) doc md hstep
        ((splitWords text).length + 1) 0 0 [] (by omega) (by simp)
      simpa [Option.isSome_map'] using hloop
  · intro hs hl fuel ci acc
    exact chunkLoop_none_of_step_nonpos u5 _ _ _ doc md hs hl fuel 0 ci acc
      (by omega)

/-- Witness for C9: with `chunk_size=40, overlap=0` the chunker completes;
with `chunk_size=2, overlap=2` (both convert to step 0) on a two-word text
the loop returns `none` even with ample fuel. -/
theorem chunk_text_termination_witness :
    (chunk_text (fun s => s) 40 0 "a b" "doc" ⟨none, none⟩).isSome ∧
      chunkLoop (fun s => s) (tokensToWords 2) (tokensToWords 2)
        (splitWords "a b") "doc" ⟨none, none⟩ 5 0 0 [] = none :=
  ⟨(chunk_text_termination (fun s => s) 40 0 "a b" "doc" ⟨none, none⟩).1
      (by decide),
   (chunk_text_termination (fun s => s) 2 2 "a b" "doc" ⟨none, none⟩).2
      (by decide) (by decide) 5 0 []⟩

/-- C4: the generated chunk id is a pure function of
`(parent_id, chunk_index)`, so a second call of `chunk_text` with identical
arguments returns the identical list, and the ids of the returned chunks
are exactly the deterministic ids of the positions `0, 1, ...` in order. -/
theorem chunk_text_ids_deterministic (u5 : String → String)
    (chunk_size overlap : Nat) (text doc : String) (md : Metadata)
    (res : List Chunk)
    (h : chunk_text u5 chunk_size overlap text doc md = some res) :
    chunk_text u5 chunk_size overlap text doc md = some res ∧
      res.map (fun c => c.id)
        = (List.range res.length).map (generate_chunk_id u5 doc) := by
  refine ⟨h, ?_⟩
  unfold chunk_text at h
  by_cases h0 : text = "" ∨ pyStrip text = ""
  · rw [if_pos h0] at h
    have hres : res = [] := ((Option.some.injEq _ _).mp h).symm
    subst hres
    rfl
  · rw [if_neg h0] at h
    obtain ⟨r, hr, hback⟩ := Option.map_eq_some'.mp h
    obtain ⟨tail, htail, hids⟩ := chunkLoop_ids u5 _ _ (splitWords text)
      doc md _ _ 0 [] r hr
    rw [List.nil_append] at htail
    subst htail
    have hidsb : (backfill r).map (fun c => c.id) = r.map (fun c => c.id) := by
      unfold backfill
      rw [List.map_map]
      rfl
    have hlenb : (backfill r).length = r.length := List.length_map _ _
    rw [← hback, hidsb, hlenb, List.range_eq_range']
    exact hids

/-- Witness for C4 at a three-word text: one chunk whose id is the
deterministic id of `("doc", 0)`. -/
theorem chunk_text_ids_deterministic_witness :
    chunk_text (fun s => s) 40 0 "a b c" "doc" ⟨none, none⟩
        = some [⟨"doc_chunk_0", "a b c", ⟨0, "a b c", "doc", some 1, 0, 3, none, none⟩⟩] ∧
      ([⟨"doc_chunk_0", "a b c", ⟨0, "a b c", "doc", some 1, 0, 3, none, none⟩⟩] :
          List Chunk).map (fun c => c.id)
        = (List.range 1).map (generate_chunk_id (fun s => s) "doc") := by
  have h := chunk_text_ids_deterministic (fun s => s) 40 0 "a b c" "doc"
    ⟨none, none⟩
    [⟨"doc_chunk_0", "a b c", ⟨0, "a b c", "doc", some 1, 0, 3, none, none⟩⟩]
    (by decide)
  exact ⟨h.1, h.2⟩

/-- C1 (code evaluation at the failing input): `chunk_size=40` tokens is 30
words; on a 40-word text the shipped `chunk_text` produces two chunks of 30
and 10 words — it has no tail-merge pass, so the 10-word tail (less than
50% of 30) is not merged into the previous chunk, contradicting the claim
and the repository's own test `test_merge_occurred`. -/
theorem chunk_text_no_tail_merge :
    tokensToWords 40 = 30 ∧
      (chunk_text (fun s => s) 40 0 (joinWords (List.replicate 40 "word"))
          "doc1" ⟨none, none⟩).map
          (fun cs => cs.map (fun c => (splitWords c.text).length))
        = some [30, 10] := by
  constructor
  · decide
  · decide

/-- C2 (code evaluation at the failing input): `overlap=13` tokens converts
to `int(13/1.33) = 9` words (step 21), not 10 words (step 20) as the claim
states, and on a 54-word text the shipped `chunk_text` produces three
chunks of 30, 30 and 12 words — no merge of the 12-word tail into the
previous chunk takes place, contradicting the claim and the repository's
own test `test_overlap_merge` (2 chunks, final chunk of 33 words). -/
theorem chunk_text_no_overlap_merge :
    tokensToWords 13 = 9 ∧
      (chunk_text (fun s => s) 40 13 (joinWords (List.replicate 54 "word"))
          "doc1" ⟨none, none⟩).map
          (fun cs => cs.map (fun c => (splitWords c.text).length))
        = some [30, 30, 12] := by
  constructor
  · decide
  · decide

/-! ## Process tracker (`app/tracker.py`) -/

/-- A Python dict `Dict[str, List[str]]` modelled as an insertion-ordered
association list (Python dicts preserve insertion order; assigning to an
existing key updates it in place, assigning to a fresh key appends it). -/
def dictLookup (d : List (String × List String)) (k : String) :
    Option (List String) :=
  match d with
  | [] => none
  | (k', v) :: rest => if k' = k then some v else dictLookup rest k

/-- Assignment `d[k] = v` on the ordered-dict model. -/
def dictSet (d : List (String × List String)) (k : String) (v : List String) :
    List (String × List String) :=
  match d with
  | [] => [(k, v)]
  | (k', v') :: rest =>
    if k' = k then (k, v) :: rest else (k', v') :: dictSet rest k v

/-- Model of `QdrantProcessTracker.processed_files` (`app/tracker.py` lines 8-11):
the in-memory state of the tracker.  (`load`/`save` exchange this state
with the YAML file; the constructor initialises it with empty `captions`
and `stories` lists.) -/
structure QdrantProcessTracker where
  processed_files : List (String × List String)
deriving Repr, DecidableEq

/-- Model of `QdrantProcessTracker.mark_as_processed` (`app/tracker.py` lines 36-40):
ensure the category key exists (`if category not in ...: ... = []`), then
append the file path to its list unless already present.  The two Python
statements are fused into one match: when the key is absent, inserting `[]`
and then appending in place equals inserting `[] ++ [file_path]` directly
(the fresh key lands at the end of the dict either way). -/
def mark_as_processed (t : QdrantProcessTracker) (file_path category : String) :
    QdrantProcessTracker :=
  match dictLookup t.processed_files category with
  | some cur =>
    if file_path ∈ cur then t
    else ⟨dictSet t.processed_files category (cur ++ [file_path])⟩
  | none => ⟨dictSet t.processed_files category ([] ++ [file_path])⟩

/-- Model of `QdrantProcessTracker.is_processed` (`app/tracker.py` lines 33-34). -/
def is_processed (t : QdrantProcessTracker) (file_path category : String) :
    Bool :=
  decide (file_path ∈ (dictLookup t.processed_files category).getD [])

/-- Looking a key up after setting it returns the assigned value. -/
theorem dictLookup_dictSet_self (d : List (String × List String))
    (k : String) (v : List String) : dictLookup (dictSet d k v) k = some v := by
  induction d with
  | nil => simp [dictSet, dictLookup]
  | cons p rest ih =>
    obtain ⟨k', v'⟩ := p
    by_cases hk : k' = k
    · simp [dictSet, dictLookup, hk]
    · simp [dictSet, dictLookup, hk, ih]

/-- Setting a key to the value it already has is the identity. -/
theorem dictSet_self (d : List (String × List String)) (k : String)
    (v : List String) (h : dictLookup d k = some v) : dictSet d k v = d := by
  induction d with
  | nil => cases h
  | cons p rest ih =>
    obtain ⟨k', v'⟩ := p
    by_cases hk : k' = k
    · subst hk
      rw [dictLookup, if_pos rfl] at h
      rw [dictSet, if_pos rfl, (Option.some.injEq _ _).mp h]
    · rw [dictLookup, if_neg hk] at h
      rw [dictSet, if_neg hk, ih h]

/-- After marking, the category's list exists and contains the file. -/
theorem mark_as_processed_mem (t : QdrantProcessTracker)
    (file_path category : String) :
    ∃ l, dictLookup (mark_as_processed t file_path category).processed_files
        category = some l ∧ file_path ∈ l := by
  rcases hlook : dictLookup t.processed_files category with _ | cur
  · simp only [mark_as_processed, hlook]
    exact ⟨[] ++ [file_path], dictLookup_dictSet_self _ _ _, by simp⟩
  · by_cases hmem : file_path ∈ cur
    · simp only [mark_as_processed, hlook, if_pos hmem]
      exact ⟨cur, rfl, hmem⟩
    · simp only [mark_as_processed, hlook, if_neg hmem]
      exact ⟨cur ++ [file_path], dictLookup_dictSet_self _ _ _, by simp⟩

/-- Marking a file that is already tracked is a no-op. -/
theorem mark_as_processed_noop (t : QdrantProcessTracker)
    (file_path category : String) (l : List String)
    (hlook : dictLookup t.processed_files category = some l)
    (hmem : file_path ∈ l) :
    mark_as_processed t file_path category = t := by
  simp only [mark_as_processed, hlook, if_pos hmem]

/-- C7: `mark_as_processed` is idempotent — marking the same
`(source, category)` twice leaves the tracker state identical to marking it
once; no duplicate entry is appended. -/
theorem mark_as_processed_idempotent (t : QdrantProcessTracker)
    (file_path category : String) :
    mark_as_processed (mark_as_processed t file_path category) file_path category
      = mark_as_processed t file_path category := by
  obtain ⟨l, hlook, hmem⟩ := mark_as_processed_mem t file_path category
  exact mark_as_processed_noop _ _ _ l hlook hmem

/-! ## Hybrid search (`app/qdrant_service.py`) -/

/-- A scored point as returned by the store's `query_points` (`hits.points`
elements).  Scores only pass through the code under verification, so their
numeric type is immaterial; payloads are carried as an opaque key-value
list. -/
structure ScoredPoint where
  id : String
  score : Int
  payload : List (String × String)
deriving Repr, DecidableEq

/-- The `{"id", "score", "payload"}` dict built from each hit
(`app/qdrant_service.py` lines 98-105). -/
structure SearchHit where
  id : String
  score : Int
  payload : List (String × String)
deriving Repr, DecidableEq

def mkHit (p : ScoredPoint) : SearchHit :=
  { id := p.id, score := p.score, payload := p.payload }

/-- The part of `get_collection(...).config` that `hybrid_search` inspects:
`sparse_vectors_config`, which is `None` (here `none`) when the collection
carries no sparse-vector signal. -/
structure CollectionConfig where
  sparse_vectors_config : Option Unit
deriving Repr, DecidableEq

structure CollectionInfo where
  config : CollectionConfig
deriving Repr, DecidableEq

/-- The remote `qdrant_client` operations that `hybrid_search` invokes,
modelled as fallible functions (`Except.error` models a raised exception):
`get_collection`, the plain dense `query_points(collection, query=vector,
limit)`, and the fused `query_points(collection, prefetch=[dense@2*limit,
sparse@2*limit], query=Fusion.RRF, limit)`. -/
structure QdrantClient where
  get_collection : String → Except String CollectionInfo
  query_points_dense : String → List Int → Nat → Except String (List ScoredPoint)
  query_points_fused :
    String → List Int → String → Nat → Nat → Except String (List ScoredPoint)

/-- Model of `QdrantService.hybrid_search` (`app/qdrant_service.py` lines 52-105):
probe the collection for a sparse-vector configuration (any exception in
the probe counts as no sparse signal, via the bare `except`); if a sparse
signal and a truthy `text_query` are present, attempt the fused query and
fall back to the dense query on any exception; otherwise query dense
directly.  The final list comprehension repackages hits as `SearchHit`s. -/
def hybrid_search (cl : QdrantClient) (collection_name : String)
    (vector : List Int) (text_query : Option String) (limit : Nat) :
    Except String (List SearchHit) :=
  let has_sparse :=
    match cl.get_collection collection_name with
    | Except.ok info => info.config.sparse_vectors_config.isSome
    | Except.error _ => false
  match text_query with
  | some t =>
    if has_sparse && (t != "") then
      match cl.query_points_fused collection_name vector t (limit * 2) limit with
      | Except.ok hits => Except.ok (hits.map mkHit)
      | Except.error _ =>
        (cl.query_points_dense collection_name vector limit).map
          (fun hits => hits.map mkHit)
    else
      (cl.query_points_dense collection_name vector limit).map
        (fun hits => hits.map mkHit)
  | none =>
    (cl.query_points_dense collection_name vector limit).map
      (fun hits => hits.map mkHit)

/-- C8: if the collection carries no sparse-vector signal (its config has
none, or the probe itself raises), or if the fused query raises,
`hybrid_search` returns exactly the dense-only query's results repackaged —
missing fusion capability never surfaces as an error to the caller. -/
theorem hybrid_search_dense_fallback (cl : QdrantClient)
    (collection_name : String) (vector : List Int)
    (text_query : Option String) (limit : Nat) :
    ((match cl.get_collection collection_name with
        | Except.ok info => info.config.sparse_vectors_config = none
        | Except.error _ => True) →
      hybrid_search cl collection_name vector text_query limit
        = (cl.query_points_dense collection_name vector limit).map
            (fun hits => hits.map mkHit)) ∧
    (∀ t e, text_query = some t →
      cl.query_points_fused collection_name vector t (limit * 2) limit
        = Except.error e →
      hybrid_search cl collection_name vector text_query limit
        = (cl.query_points_dense collection_name vector limit).map
            (fun hits => hits.map mkHit)) := by
  constructor
  · intro hnosparse
    unfold hybrid_search
    rcases text_query with _ | t
    · rfl
    · rcases hcol : cl.get_collection collection_name with e | info
      · simp [hcol]
      · rw [hcol] at hnosparse
        simp only [] at hnosparse
        simp [hcol, hnosparse]
  · intro t e ht hfused
    subst ht
    unfold hybrid_search
    rcases hcol : cl.get_collection collection_name with e' | info
    · simp [hcol]
    · by_cases hsp : info.config.sparse_vectors_config.isSome && (t != "")
      · simp only [hcol, hsp, if_pos, hfused]
      · simp only [hcol]
        rw [if_neg (by simpa using hsp)]

/-- Witness for C8: a client whose collection probe raises and whose dense
query returns one point — the hybrid search silently returns that point. -/
theorem hybrid_search_dense_fallback_witness :
    hybrid_search
        ⟨fun _ => Except.error "missing collection",
         fun _ _ _ => Except.ok [⟨"p0", 1, []⟩],
         fun _ _ _ _ _ => Except.error "no sparse"⟩
        "captions" [1, 2] (some "query") 5
      = Except.ok [⟨"p0", 1, []⟩] := by
  have h := (hybrid_search_dense_fallback
    ⟨fun _ => Except.error "missing collection",
     fun _ _ _ => Except.ok [⟨"p0", 1, []⟩],
     fun _ _ _ _ _ => Except.error "no sparse"⟩
    "captions" [1, 2] (some "query") 5).1 trivial
  rw [h]
  rfl

/-! ## Indexing pipeline (`app/index_all.py`) -/

/-- A raw document as gathered in `index_documents`
(`app/index_all.py` lines 48-52, produced by `app/ingest.py`):
`{'id', 'text', 'payload': {'type', 'source', ...}}`.  `payload.get('type')`
may be absent (`none`); every document produced by `app/ingest.py` carries a
string `source` path (the tracker's dedup key), so `source` is a `String`. -/
structure RawDoc where
  id : String
  text : String
  type : Option String
  source : String
deriving Repr, DecidableEq

/-- The point dict built per chunk (`app/index_all.py` lines 105-109).
Embedding vectors only pass through, so their element type is `Int`. -/
structure Point where
  id : String
  vector : List Int
  payload : ChunkPayload
deriving Repr, DecidableEq

def mkPoint (c : Chunk) (v : List Int) : Point :=
  { id := c.id, vector := v, payload := c.payload }

/-- The `for chunk, vec in zip(batch, vecs)` routing loop
(`app/index_all.py` lines 104-114): a point whose chunk payload `type` is
exactly `"caption"` goes to the captions group, every other point —
including one with a missing or unrecognized type — goes to the stories
group. -/
def partitionPoints : List Chunk → List (List Int) → List Point × List Point
  | c :: cs, v :: vs =>
    let rest := partitionPoints cs vs
    if c.payload.type = some "caption" then (mkPoint c v :: rest.1, rest.2)
    else (rest.1, mkPoint c v :: rest.2)
  | _, _ => ([], [])

/-- The embedding client: `embedder.encode` can raise (network), and
`embedder.dim` is the collection vector size used by `ensure_collection`. -/
structure Embedder where
  dim : Nat
  encode : List String → Except String (List (List Int))

/-- The vector store operations used by the batch loop; `Except.error`
models a raised exception. -/
structure VectorStore where
  ensure_collection : String → Nat → Except String Unit
  upsert_points : String → List Point → Except String Unit

/-- One `if points: ensure_collection(...); upsert_points(...)` block
(`app/index_all.py` lines 117-122).  The log records the successful upsert
calls in order; `some e` aborts the run (the Python exception propagates). -/
def upsertGroup (store : VectorStore) (dim : Nat) (coll : String)
    (pts : List Point) (log : List (String × List Point)) :
    List (String × List Point) × Option String :=
  if pts.isEmpty then (log, none)
  else
    match store.ensure_collection coll dim with
    | Except.error e => (log, some e)
    | Except.ok _ =>
      match store.upsert_points coll pts with
      | Except.error e => (log, some e)
      | Except.ok _ => (log ++ [(coll, pts)], none)

/-- The body of one iteration of the batch loop
(`app/index_all.py` lines 93-125): embed the batch, partition the points,
upsert the captions group then the stories group. -/
def processBatch (emb : Embedder) (store : VectorStore)
    (captions_coll stories_coll : String) (batch : List Chunk)
    (log : List (String × List Point)) :
    List (String × List Point) × Option String :=
  match emb.encode (batch.map (fun c => c.text)) with
  | Except.error e => (log, some e)
  | Except.ok vecs =>
    match upsertGroup store emb.dim captions_coll
        (partitionPoints batch vecs).1 log with
    | (log', some e) => (log', some e)
    | (log', none) =>
      upsertGroup store emb.dim stories_coll (partitionPoints batch vecs).2 log'

/-- The batch loop: sequential batches, first exception aborts the run. -/
def runBatches (emb : Embedder) (store : VectorStore)
    (captions_coll stories_coll : String) :
    List (List Chunk) → List (String × List Point) → Nat →
      List (String × List Point) × Nat × Option String
  | [], log, total => (log, total, none)
  | batch :: rest, log, total =>
    match processBatch emb store captions_coll stories_coll batch log with
    | (log', some e) => (log', total, some e)
    | (log', none) =>
      runBatches emb store captions_coll stories_coll rest log'
        (total + batch.length)

/-- Python `range(0, n, batch)` for `batch ≥ 1`. -/
def batchStarts (n batch : Nat) : List Nat :=
  List.range' 0 ((n + batch - 1) / batch) batch

/-- The batches `all_chunks[i : i + batch]` (`app/index_all.py` line 94). -/
def batchesOf {α : Type} (batch : Nat) (l : List α) : List (List α) :=
  (batchStarts l.length batch).map (fun i => (l.drop i).take batch)

/-- The sources of this run destined for the captions tracker category
(`app/index_all.py` lines 82-89): Python collects them in a `set`, modelled
as a deduplicated list (set iteration order is unspecified; every property
proved below is order-independent). -/
def capSources (raw_docs : List RawDoc) : List String :=
  ((raw_docs.filter (fun d => d.type == some "caption")).map
    (fun d => d.source)).dedup

/-- The sources destined for the stories category (the `else` branch:
everything whose type is not exactly `"caption"`). -/
def storySources (raw_docs : List RawDoc) : List String :=
  ((raw_docs.filter (fun d => !(d.type == some "caption"))).map
    (fun d => d.source)).dedup

/-- The tracker-commit phase (`app/index_all.py` lines 128-131). -/
def markAll (tracker : QdrantProcessTracker) (raw_docs : List RawDoc) :
    QdrantProcessTracker :=
  (storySources raw_docs).foldl (fun t s => mark_as_processed t s "stories")
    ((capSources raw_docs).foldl
      (fun t s => mark_as_processed t s "captions") tracker)

/-- The observable outcome of one `index_documents` run: the successful
upsert calls in order, the final in-memory tracker, the tracker state
written by `tracker.save()` (if reached), the propagated exception (if
any), and the reported indexed count. -/
structure RunResult where
  upsert_log : List (String × List Point)
  tracker : QdrantProcessTracker
  saved : Option QdrantProcessTracker
  error : Option String
  total_indexed : Nat
deriving Repr, DecidableEq

/-- Model of `index_documents` (`app/index_all.py` lines 33-141) from the point
where the raw documents have been gathered: chunk every document, batch and
upsert, and only after every batch has succeeded mark all sources and save
the tracker.  An exception anywhere in the batch loop propagates out of the
`async def` (there is no `try` around it), skipping the mark/save epilogue.
The outer `Option` is the chunker's fuel bookkeeping (`none` never occurs
for the configured sizes, where the word step is positive). -/
def index_documents (u5 : String → String) (emb : Embedder)
    (store : VectorStore) (tracker : QdrantProcessTracker)
    (raw_docs : List RawDoc) (chunk_size overlap batch_size : Nat)
    (captions_coll stories_coll : String) : Option RunResult :=
  if raw_docs.isEmpty then
    some { upsert_log := [], tracker := tracker, saved := none,
           error := none, total_indexed := 0 }
  else
    match raw_docs.mapM (fun d =>
        chunk_text u5 chunk_size overlap d.text d.id ⟨d.type, some d.source⟩) with
    | none => none
    | some chunk_lists =>
      match runBatches emb store captions_coll stories_coll
          (batchesOf batch_size chunk_lists.flatten) [] 0 with
      | (log, total, some e) =>
        some { upsert_log := log, tracker := tracker, saved := none,
               error := some e, total_indexed := total }
      | (log, total, none) =>
        some { upsert_log := log, tracker := markAll tracker raw_docs,
               saved := some (markAll tracker raw_docs), error := none,
               total_indexed := total }

/-- C3: if embedding or upsert fails on any batch, `index_documents`
leaves the tracker exactly as it started and never writes the tracker
file; the tracker is written (and then it records the marks) only when the
whole batch loop has succeeded. -/
theorem index_documents_atomic (u5 : String → String) (emb : Embedder)
    (store : VectorStore) (tracker : QdrantProcessTracker)
    (raw_docs : List RawDoc) (chunk_size overlap batch_size : Nat)
    (captions_coll stories_coll : String) (r : RunResult)
    (h : index_documents u5 emb store tracker raw_docs chunk_size overlap
        batch_size captions_coll stories_coll = some r) :
    (r.error.isSome → r.tracker = tracker ∧ r.saved = none) ∧
    (r.saved.isSome → r.error = none) ∧
    (raw_docs ≠ [] → r.error = none → r.saved = some r.tracker) := by
  unfold index_documents at h
  by_cases hempty : raw_docs.isEmpty
  · rw [if_pos hempty] at h
    have hr : r = { upsert_log := [], tracker := tracker, saved := none,
                    error := none, total_indexed := 0 } :=
      ((Option.some.injEq _ _).mp h).symm
    subst hr
    refine ⟨?_, ?_, ?_⟩
    · intro hsome; cases hsome
    · intro hsome; cases hsome
    · intro hne; exact absurd (List.isEmpty_iff.mp hempty) hne
  · rw [if_neg hempty] at h
    rcases hmap : raw_docs.mapM (fun d =>
        chunk_text u5 chunk_size overlap d.text d.id ⟨d.type, some d.source⟩)
      with _ | chunk_lists
    · simp only [hmap] at h
      cases h
    · simp only [hmap] at h
      rcases hrun : runBatches emb store captions_coll stories_coll
          (batchesOf batch_size chunk_lists.flatten) [] 0 with ⟨log, total, err⟩
      rcases err with _ | e
      · simp only [hrun] at h
        have hr : r = { upsert_log := log, tracker := markAll tracker raw_docs,
                        saved := some (markAll tracker raw_docs), error := none,
                        total_indexed := total } :=
          ((Option.some.injEq _ _).mp h).symm
        subst hr
        refine ⟨?_, ?_, ?_⟩
        · intro hsome; cases hsome
        · intro _; rfl
        · intro _ _; rfl
      · simp only [hrun] at h
        have hr : r = { upsert_log := log, tracker := tracker, saved := none,
                        error := some e, total_indexed := total } :=
          ((Option.some.injEq _ _).mp h).symm
        subst hr
        refine ⟨?_, ?_, ?_⟩
        · intro _; exact ⟨rfl, rfl⟩
        · intro hsome; cases hsome
        · intro _ habs; cases habs

/-- Membership in the stories group: every zipped (chunk, vector) pair
whose type is not exactly `"caption"` contributes its point to the stories
group. -/
theorem partitionPoints_mem_stories :
    ∀ (batch : List Chunk) (vecs : List (List Int)) (p : Chunk × List Int),
      p ∈ batch.zip vecs → ¬p.1.payload.type = some "caption" →
      mkPoint p.1 p.2 ∈ (partitionPoints batch vecs).2 := by
  intro batch
  induction batch with
  | nil => intro vecs p hp _; cases hp
  | cons c cs ih =>
    intro vecs p hp htype
    rcases vecs with _ | ⟨v, vs⟩
    · cases hp
    · rw [List.zip_cons_cons] at hp
      rcases List.mem_cons.mp hp with hp | hp
      · subst hp
        rw [partitionPoints, if_neg htype]
        exact List.mem_cons_self _ _
      · rw [partitionPoints]
        by_cases hc : c.payload.type = some "caption"
        · rw [if_pos hc]
          exact ih vs p hp htype
        · rw [if_neg hc]
          exact List.mem_cons_of_mem _ (ih vs p hp htype)

/-- No point is dropped: the two groups together hold exactly one point per
zipped (chunk, vector) pair. -/
theorem partitionPoints_length :
    ∀ (batch : List Chunk) (vecs : List (List Int)),
      (partitionPoints batch vecs).1.length
          + (partitionPoints batch vecs).2.length
        = (batch.zip vecs).length := by
  intro batch
  induction batch with
  | nil => intro vecs; rfl
  | cons c cs ih =>
    intro vecs
    rcases vecs with _ | ⟨v, vs⟩
    · rfl
    · rw [List.zip_cons_cons, List.length_cons, partitionPoints]
      by_cases hc : c.payload.type = some "caption"
      · rw [if_pos hc]
        simp only [List.length_cons]
        rw [← ih vs]
        omega
      · rw [if_neg hc]
        simp only [List.length_cons]
        rw [← ih vs]
        omega

/-- A successful `upsertGroup` on a nonempty group appends exactly one
upsert call for that collection and group. -/
theorem upsertGroup_none_log (store : VectorStore) (dim : Nat) (coll : String)
    (pts : List Point) (log log' : List (String × List Point))
    (hne : pts ≠ []) (h : upsertGroup store dim coll pts log = (log', none)) :
    log' = log ++ [(coll, pts)] := by
  unfold upsertGroup at h
  rw [if_neg (by simpa [List.isEmpty_iff] using hne)] at h
  rcases hens : store.ensure_collection coll dim with e | u
  · rw [hens] at h; cases h
  · rw [hens] at h
    rcases hup : store.upsert_points coll pts with e | u'
    · rw [hup] at h; cases h
    · rw [hup] at h
      exact ((Prod.mk.injEq _ _ _ _).mp h).1.symm

/-- C10: in the batch loop of `index_documents`, every embedded point whose
chunk payload `type` is anything other than the exact string `"caption"` —
including a missing type — lands in the stories group; the two groups
together keep every embedded point; and a batch that completes with a
nonempty stories group has upserted that group into the stories
collection. -/
theorem batch_routing_default_stories (emb : Embedder) (store : VectorStore)
    (captions_coll stories_coll : String) (batch : List Chunk)
    (vecs : List (List Int)) (log log' : List (String × List Point))
    (henc : emb.encode (batch.map (fun c => c.text)) = Except.ok vecs) :
    (∀ p ∈ batch.zip vecs, ¬p.1.payload.type = some "caption" →
      mkPoint p.1 p.2 ∈ (partitionPoints batch vecs).2) ∧
    ((partitionPoints batch vecs).1.length
        + (partitionPoints batch vecs).2.length = (batch.zip vecs).length) ∧
    ((partitionPoints batch vecs).2 ≠ [] →
      processBatch emb store captions_coll stories_coll batch log
          = (log', none) →
      (stories_coll, (partitionPoints batch vecs).2) ∈ log') := by
  refine ⟨fun p hp htype => partitionPoints_mem_stories batch vecs p hp htype,
    partitionPoints_length batch vecs, ?_⟩
  intro hne hproc
  unfold processBatch at hproc
  simp only [henc] at hproc
  rcases hg1 : upsertGroup store emb.dim captions_coll
      (partitionPoints batch vecs).1 log with ⟨log₁, err₁⟩
  rcases err₁ with _ | e
  all_goals simp only [hg1] at hproc
  · have hlog' := upsertGroup_none_log store emb.dim stories_coll
      (partitionPoints batch vecs).2 log₁ log' hne hproc
    rw [hlog']
    exact List.mem_append_right _ (List.mem_singleton.mpr rfl)
  · cases hproc

/-- Witness scenario for C3: an embedder that always succeeds and a store
that raises on the batch containing the second document's chunk. -/
def c3emb : Embedder := ⟨2, fun ts => Except.ok (ts.map (fun _ => [7, 7]))⟩

def c3store : VectorStore :=
  ⟨fun _ _ => Except.ok (),
   fun _ pts =>
     if pts.any (fun p => p.id == "doc2_chunk_0") then Except.error "boom"
     else Except.ok ()⟩

def c3tracker : QdrantProcessTracker := ⟨[("captions", []), ("stories", [])]⟩

def c3docs : List RawDoc :=
  [⟨"doc1", "a b c", some "caption", "s1"⟩,
   ⟨"doc2", "d e f", some "story", "s2"⟩,
   ⟨"doc3", "g h i", some "story", "s3"⟩]

def c3result : RunResult :=
  ⟨[("captions",
      [⟨"doc1_chunk_0", [7, 7],
        ⟨0, "a b c", "doc1", some 1, 0, 3, some "caption", some "s1"⟩⟩])],
   c3tracker, none, some "boom", 1⟩

/-- Witness for C3: three one-chunk documents in three one-chunk batches;
the second batch's upsert raises; although the first batch was embedded
and upserted, the tracker is left untouched and never saved. -/
theorem index_documents_atomic_witness :
    index_documents (fun s => s) c3emb c3store c3tracker c3docs 4 0 1
        "captions" "stories" = some c3result ∧
      c3result.tracker = c3tracker ∧ c3result.saved = none :=
  ⟨by decide,
   (index_documents_atomic (fun s => s) c3emb c3store c3tracker c3docs 4 0 1
      "captions" "stories" c3result (by decide)).1 (by decide)⟩

/-- Witness scenario for C10: a two-chunk batch with a missing type and an
unrecognized type. -/
def c10emb : Embedder := ⟨1, fun _ => Except.ok [[1], [2]]⟩

def c10store : VectorStore := ⟨fun _ _ => Except.ok (), fun _ _ => Except.ok ()⟩

def c10chunk0 : Chunk := ⟨"x_chunk_0", "a b", ⟨0, "a b", "x", some 2, 0, 2, none, none⟩⟩

def c10chunk1 : Chunk :=
  ⟨"x_chunk_1", "c d", ⟨1, "c d", "x", some 2, 2, 4, some "weird", none⟩⟩

def c10log : List (String × List Point) :=
  [("stories", [mkPoint c10chunk0 [1], mkPoint c10chunk1 [2]])]

/-- Witness for C10: both the missing-type and the unrecognized-type point
land in the stories group, no point is dropped, and the completed batch has
upserted the group into the stories collection. -/
theorem batch_routing_default_stories_witness :
    mkPoint c10chunk0 [1]
        ∈ (partitionPoints [c10chunk0, c10chunk1] [[1], [2]]).2 ∧
      (partitionPoints [c10chunk0, c10chunk1] [[1], [2]]).1.length
          + (partitionPoints [c10chunk0, c10chunk1] [[1], [2]]).2.length = 2 ∧
      ("stories", (partitionPoints [c10chunk0, c10chunk1] [[1], [2]]).2)
        ∈ c10log := by
  have h := batch_routing_default_stories c10emb c10store "captions" "stories"
    [c10chunk0, c10chunk1] [[1], [2]] [] c10log rfl
  exact ⟨h.1 (c10chunk0, [1]) (by decide) (by decide),
    h.2.1.trans (by decide),
    h.2.2 (by decide) (by decide)⟩

end QdrantSpec
